import Mathlib

/-!
Verification of the Fire compiler front end (src/main.cpp): a shallow
embedding of the lexical analyzer and the literal-to-syscall code
generator, together with theorems settling the specified properties.

Modelling conventions:
* C++ strings and byte buffers are modelled as `List Char` (the source is
  ASCII; `std.isalpha` and friends are modelled with their C-locale ASCII
  meaning).
* The mutable `Tokenizer` object (fields `input`, `pos`, `line`, `column`)
  becomes a record passed and returned explicitly.  The cached `length`
  member always equals `input.length` and is modelled as a function.
* Diagnostics printed to `std.cerr` by the code generator are modelled as
  an explicit output list (the spec treats diagnostics as a side channel
  of `(message, position)` pairs).  The lexer diagnostics do not affect
  any claim and are not captured.
* 32-bit unsigned arithmetic is modelled on `Nat` with explicit reduction
  modulo `2 ^ 32`.
-/

namespace Fire

/-- Position of a token in the source, 1-based line and column
(struct `Position` in the source). -/
structure Position where
  line : Nat
  column : Nat
deriving DecidableEq, Repr

/-- Lexicographic order on positions under (line, column), as used by the
position-monotonicity property. -/
def posLe (a b : Position) : Prop :=
  a.line < b.line ∨ (a.line = b.line ∧ a.column ≤ b.column)

instance (a b : Position) : Decidable (posLe a b) := by
  unfold posLe
  infer_instance

/-- Token kinds (enum class `TokenType` in the source). -/
inductive TokenType where
  | _return
  | int_lit
  | string_lit
  | identifier
  | semi
  | quote
  | eof
  | invalid
deriving DecidableEq, Repr

/-- Assembly operations (enum class `AsmOp` in the source). -/
inductive AsmOp where
  | mov
  | ret
  | push
  | pop
  | syscall
  | add
  | sub
  | lea
  | invalid
deriving DecidableEq, Repr

/-- FNV-1a hash of a word, 32-bit arithmetic
(function `hash_keyword` in the source). -/
def hash_keyword (str : List Char) : Nat :=
  str.foldl (fun hash c => ((hash ^^^ c.toNat) * 16777619) % 4294967296) 2166136261

/-- Keyword classification: the source switches on `hash_keyword word` with a
single case labelled by the compile-time constant `hash_keyword "return"`
(function `get_keyword_type` in the source).  Note that only the hashes are
compared; the spelling itself is never verified. -/
def get_keyword_type (word : List Char) : TokenType :=
  if hash_keyword word = hash_keyword ("return".toList) then TokenType._return
  else TokenType.identifier

/-- Small-string-optimization threshold (constant `SMALL_STRING_SIZE`). -/
def SMALL_STRING_SIZE : Nat := 24

/-- A token.  The `value` field holds exactly the byte sequence handed to the
C++ `Token` constructor.  The constructor stores it inline (values of length
`< SMALL_STRING_SIZE`, NUL-terminated) or on the heap; that storage choice is
modelled inside `Token.get_value` below. -/
structure Token where
  type : TokenType
  value : List Char
  pos : Position
deriving DecidableEq, Repr

/-- Reading a token value back (method `Token.get_value` in the source).
For a small value the C++ code evaluates `std.string(value.small)`, reading
the inline buffer as a C string, i.e. up to the first NUL byte; large values
are read back from the owned heap string unchanged. -/
def Token.get_value (t : Token) : List Char :=
  if t.value.length < SMALL_STRING_SIZE then
    t.value.takeWhile (fun c => c ≠ '\x00')
  else
    t.value

/-- A pooled string constant (struct `StringLiteral` in the source). -/
structure StringLiteral where
  label : String
  value : List Char
  length : Nat
deriving DecidableEq, Repr

/-- The deduplicating string pool (class `StringPool` in the source).  The
C++ class keeps a hash map from content to index next to the vector; the map
keys are exactly the contents of the stored entries, so lookup is modelled by
searching the vector by value. -/
structure StringPool where
  strings : List StringLiteral
deriving DecidableEq, Repr

/-- Look up a string by content, appending a fresh `str_<N>` entry when the
content is not yet pooled; returns the index of the entry and the updated
pool (method `StringPool.get_or_add` in the source). -/
def StringPool.get_or_add (p : StringPool) (value : List Char) : Nat × StringPool :=
  match p.strings.findIdx? (fun sl => sl.value == value) with
  | some i => (i, p)
  | none =>
      let index := p.strings.length
      let label := "str_" ++ toString index
      (index, ⟨p.strings ++ [⟨label, value, value.length⟩]⟩)

/-- One emitted instruction (struct `AsmInstruction` in the source).  The
`strings` field is populated only on the first instruction of the program, as
a carrier for the data section. -/
structure AsmInstruction where
  op : AsmOp
  operand1 : String
  operand2 : String
  strings : List StringLiteral := []
deriving DecidableEq, Repr

/-- A code-generator diagnostic written to the error channel. -/
inductive Diag where
  | invalid_return_value (pos : Position)
deriving DecidableEq, Repr

/-- C-locale `isspace` on ASCII input. -/
def c_isspace (c : Char) : Bool :=
  c == ' ' || c == '\t' || c == '\n' || c == '\x0b' || c == '\x0c' || c == '\r'

/-- C-locale `isalpha` on ASCII input. -/
def c_isalpha (c : Char) : Bool :=
  ('a'.toNat ≤ c.toNat && c.toNat ≤ 'z'.toNat) ||
  ('A'.toNat ≤ c.toNat && c.toNat ≤ 'Z'.toNat)

/-- Lexer state (class `Tokenizer` in the source; the token vector is
returned by the scanning functions instead of being a mutable member). -/
structure Tokenizer where
  input : List Char
  pos : Nat
  line : Nat
  column : Nat
deriving DecidableEq, Repr

/-- The cached `length` member of the source class, always initialized to the
input length. -/
def Tokenizer.length (s : Tokenizer) : Nat := s.input.length

/-- The current scan position of a lexer state, as a `Position`. -/
def Tokenizer.statePos (s : Tokenizer) : Position := ⟨s.line, s.column⟩

/-- The constructor: cursor at 0, line 1, column 1. -/
def Tokenizer.init (source : List Char) : Tokenizer :=
  ⟨source, 0, 1, 1⟩

/-- Method `peek`: the current character, or NUL at end of input. -/
def Tokenizer.peek (s : Tokenizer) : Char :=
  if s.pos < s.length then s.input.getD s.pos '\x00' else '\x00'

/-- Method `advance`: bump the column and step the cursor (the cursor moves
only while in range; the column is bumped unconditionally, exactly as the
source does). -/
def Tokenizer.advance (s : Tokenizer) : Tokenizer :=
  { s with column := s.column + 1,
           pos := if s.pos < s.length then s.pos + 1 else s.pos }

/-- Method `is_digit`. -/
def is_digit (c : Char) : Bool :=
  '0'.toNat ≤ c.toNat && c.toNat ≤ '9'.toNat

/-- C-locale `isalnum` on ASCII input. -/
def c_isalnum (c : Char) : Bool :=
  c_isalpha c || is_digit c

/-- Method `skip_comment`: advance while before a newline
(while `pos < length` and `input[pos] != '\n'`). -/
def Tokenizer.skip_comment (s : Tokenizer) : Tokenizer :=
  if h : s.pos < s.length ∧ s.input.getD s.pos '\x00' ≠ '\n' then
    Tokenizer.skip_comment s.advance
  else s
termination_by s.length - s.pos
decreasing_by
  simp only [Tokenizer.advance, Tokenizer.length] at *
  split
  · omega
  · omega

/-- Method `skip_whitespace_and_comments`: loop skipping whitespace
(updating line and column bookkeeping) and line comments `//` until neither
is found at the cursor. -/
def Tokenizer.skip_whitespace_and_comments (s : Tokenizer) : Tokenizer :=
  if h : s.pos < s.length then
    if hsp : c_isspace (s.input.getD s.pos '\x00') then
      Tokenizer.skip_whitespace_and_comments
        (if s.input.getD s.pos '\x00' = '\n' then
           { s with pos := s.pos + 1, line := s.line + 1, column := 1 }
         else
           { s with pos := s.pos + 1, column := s.column + 1 })
    else if hcm : s.pos + 1 < s.length ∧ s.input.getD s.pos '\x00' = '/' ∧
                  s.input.getD (s.pos + 1) '\x00' = '/' then
      Tokenizer.skip_whitespace_and_comments s.skip_comment
    else s
  else s
termination_by s.length - s.pos
decreasing_by
  · split <;> · simp only [Tokenizer.length] at h ⊢; omega
  · have key : ∀ u : Tokenizer,
        u.skip_comment.input = u.input ∧ u.pos ≤ u.skip_comment.pos := by
      intro u
      induction u using Tokenizer.skip_comment.induct with
      | case1 u hu ih =>
          rw [Tokenizer.skip_comment, dif_pos hu]
          refine ⟨by rw [ih.1]; rfl, le_trans ?_ ih.2⟩
          simp only [Tokenizer.advance]
          split <;> omega
      | case2 u hu =>
          rw [Tokenizer.skip_comment, dif_neg hu]
          exact ⟨rfl, le_refl _⟩
    have hg : s.pos < s.length ∧ s.input.getD s.pos '\x00' ≠ '\n' :=
      ⟨h, by rw [hcm.2.1]; decide⟩
    have h1 : s.skip_comment = s.advance.skip_comment := by
      conv_lhs => rw [Tokenizer.skip_comment]
      rw [dif_pos hg]
    have hadv : s.advance.pos = s.pos + 1 := by
      simp only [Tokenizer.advance]
      rw [if_pos h]
    have hi : s.skip_comment.input = s.input := by
      rw [h1, (key s.advance).1]; rfl
    have hp : s.pos + 1 ≤ s.skip_comment.pos := by
      rw [h1, ← hadv]; exact (key s.advance).2
    simp only [Tokenizer.length, hi]
    have := h
    simp only [Tokenizer.length] at this
    omega

/-- The loop of method `handle_number`: advance while on a digit. -/
def Tokenizer.consume_digits (s : Tokenizer) : Tokenizer :=
  if h : s.pos < s.length ∧ is_digit (s.input.getD s.pos '\x00') then
    Tokenizer.consume_digits s.advance
  else s
termination_by s.length - s.pos
decreasing_by
  simp only [Tokenizer.advance, Tokenizer.length] at *
  split <;> omega

/-- Method `handle_number`: scan a maximal run of digits and build an
`int_lit` token from the raw digit text, positioned at the first digit
(the source records `start = pos` and `start_col = column` before the loop
and slices `input[start .. pos)` afterwards; the line member is read after
the loop, which never changes it). -/
def Tokenizer.handle_number (s : Tokenizer) : Token × Tokenizer :=
  (⟨TokenType.int_lit, (s.input.drop s.pos).take (s.consume_digits.pos - s.pos),
    ⟨s.consume_digits.line, s.column⟩⟩, s.consume_digits)

/-- The escape-decoding switch inside method `handle_string`: `\n`, `\t`,
`\"`, `\\` decode to their meanings and any other character is copied
through unchanged. -/
def escape_decode (c : Char) : Char :=
  if c = 'n' then '\n'
  else if c = 't' then '\t'
  else if c = '"' then '"'
  else if c = '\\' then '\\'
  else c

/-- The accumulation loop of method `handle_string`: decode characters until
an unescaped quote, a newline, or the end of the input.  On a newline or at
end of input an `invalid` token carrying the partial decode is produced; on
the closing quote a `string_lit` token is produced and the quote consumed. -/
def Tokenizer.handle_string_loop (s : Tokenizer) (start : Position)
    (str : List Char) : Token × Tokenizer :=
  if h : s.peek ≠ '"' ∧ s.peek ≠ '\x00' then
    if s.peek = '\n' then
      (⟨TokenType.invalid, str, start⟩, s)
    else if s.peek = '\\' then
      Tokenizer.handle_string_loop s.advance.advance start
        (str ++ [escape_decode s.advance.peek])
    else
      Tokenizer.handle_string_loop s.advance start (str ++ [s.peek])
  else if s.peek = '"' then
    (⟨TokenType.string_lit, str, start⟩, s.advance)
  else
    (⟨TokenType.invalid, str, start⟩, s)
termination_by s.length - s.pos
decreasing_by
  · have hlt : s.pos < s.length := by
      by_contra hc
      exact h.2 (by simp [Tokenizer.peek, hc])
    simp only [Tokenizer.advance, Tokenizer.length] at *
    split <;> split <;> omega
  · have hlt : s.pos < s.length := by
      by_contra hc
      exact h.2 (by simp [Tokenizer.peek, hc])
    simp only [Tokenizer.advance, Tokenizer.length] at *
    split <;> omega

/-- Method `handle_string`: record the start position before consuming the
opening quote, skip the quote, and run the accumulation loop with an empty
decoded text. -/
def Tokenizer.handle_string (s : Tokenizer) : Token × Tokenizer :=
  Tokenizer.handle_string_loop s.advance ⟨s.line, s.column⟩ []

/-- The identifier loop inside method `tokenize`: advance while on an
alphanumeric character or an underscore. -/
def Tokenizer.consume_ident (s : Tokenizer) : Tokenizer :=
  if h : s.pos < s.length ∧
      (c_isalnum (s.input.getD s.pos '\x00') || s.input.getD s.pos '\x00' == '_') then
    Tokenizer.consume_ident s.advance
  else s
termination_by s.length - s.pos
decreasing_by
  simp only [Tokenizer.advance, Tokenizer.length] at *
  split <;> omega

/-- Prepend a freshly produced token to the result of the rest of the scan
(the source appends to a member vector; the emission order is identical). -/
def cons_token (t : Token) (r : List Token × Tokenizer) : List Token × Tokenizer :=
  (t :: r.1, r.2)

/-- The identifier/keyword case of method `tokenize`: slice the maximal
alphanumeric-or-underscore run starting at the cursor and classify it with
`get_keyword_type`.  The position uses the column recorded before the run and
the line read after it (which the run never changes). -/
def Tokenizer.ident_token (s : Tokenizer) : Token :=
  ⟨get_keyword_type ((s.input.drop s.pos).take (s.consume_ident.pos - s.pos)),
   (s.input.drop s.pos).take (s.consume_ident.pos - s.pos),
   ⟨s.consume_ident.line, s.column⟩⟩

/-- The scanning loop of method `tokenize`: while the cursor is in range,
skip whitespace and comments, stop if that reached the end, and otherwise
dispatch on the current character exactly as the source does.  Unexpected
characters produce a diagnostic on the error channel (not modelled) and are
skipped without producing a token. -/
def Tokenizer.tokenize_loop (s : Tokenizer) : List Token × Tokenizer :=
  if h : s.pos < s.length then
    if h1 : s.skip_whitespace_and_comments.pos < s.skip_whitespace_and_comments.length then
      if s.skip_whitespace_and_comments.peek = '"' then
        cons_token (s.skip_whitespace_and_comments.handle_string).1
          (Tokenizer.tokenize_loop (s.skip_whitespace_and_comments.handle_string).2)
      else if hd : is_digit s.skip_whitespace_and_comments.peek then
        cons_token (s.skip_whitespace_and_comments.handle_number).1
          (Tokenizer.tokenize_loop (s.skip_whitespace_and_comments.handle_number).2)
      else if s.skip_whitespace_and_comments.peek = ';' then
        cons_token ⟨TokenType.semi, [';'],
            ⟨s.skip_whitespace_and_comments.line, s.skip_whitespace_and_comments.column⟩⟩
          (Tokenizer.tokenize_loop s.skip_whitespace_and_comments.advance)
      else if ha : c_isalpha s.skip_whitespace_and_comments.peek then
        cons_token s.skip_whitespace_and_comments.ident_token
          (Tokenizer.tokenize_loop s.skip_whitespace_and_comments.consume_ident)
      else
        Tokenizer.tokenize_loop s.skip_whitespace_and_comments.advance
    else ([], s.skip_whitespace_and_comments)
  else ([], s)
termination_by s.length - s.pos
decreasing_by
  · have kc : ∀ u : Tokenizer,
        u.skip_comment.input = u.input ∧ u.pos ≤ u.skip_comment.pos := by
      intro u
      induction u using Tokenizer.skip_comment.induct with
      | case1 u hu ih =>
          rw [Tokenizer.skip_comment, dif_pos hu]
          refine ⟨by rw [ih.1]; rfl, le_trans ?_ ih.2⟩
          simp only [Tokenizer.advance]
          split <;> omega
      | case2 u hu =>
          rw [Tokenizer.skip_comment, dif_neg hu]
          exact ⟨rfl, le_refl _⟩
    have kw : ∀ u : Tokenizer,
        u.skip_whitespace_and_comments.input = u.input ∧
          u.pos ≤ u.skip_whitespace_and_comments.pos := by
      intro u
      induction u using Tokenizer.skip_whitespace_and_comments.induct with
      | case1 u h1 h2 ih =>
          rw [Tokenizer.skip_whitespace_and_comments, dif_pos h1, dif_pos h2]
          by_cases hnl : u.input.getD u.pos '\x00' = '\n'
          · rw [if_pos hnl]
            rw [dif_pos hnl] at ih
            exact ⟨by rw [ih.1], le_trans (Nat.le_succ u.pos) ih.2⟩
          · rw [if_neg hnl]
            rw [dif_neg hnl] at ih
            exact ⟨by rw [ih.1], le_trans (Nat.le_succ u.pos) ih.2⟩
      | case2 u h1 h2 h3 ih =>
          rw [Tokenizer.skip_whitespace_and_comments, dif_pos h1, dif_neg h2, dif_pos h3]
          exact ⟨by rw [ih.1, (kc u).1], le_trans (kc u).2 ih.2⟩
      | case3 u h1 h2 h3 =>
          rw [Tokenizer.skip_whitespace_and_comments, dif_pos h1, dif_neg h2, dif_neg h3]
          exact ⟨rfl, le_refl _⟩
      | case4 u h1 =>
          rw [Tokenizer.skip_whitespace_and_comments, dif_neg h1]
          exact ⟨rfl, le_refl _⟩
    have kh : ∀ (u : Tokenizer) (st : Position) (str : List Char),
        (u.handle_string_loop st str).2.input = u.input ∧
          u.pos ≤ (u.handle_string_loop st str).2.pos := by
      intro u st str
      induction u, st, str using Tokenizer.handle_string_loop.induct with
      | case1 u st str hg hn =>
          rw [Tokenizer.handle_string_loop, dif_pos hg, if_pos hn]
          exact ⟨rfl, le_refl _⟩
      | case2 u st str hg hn hb ih =>
          rw [Tokenizer.handle_string_loop, dif_pos hg, if_neg hn, if_pos hb]
          refine ⟨by rw [ih.1]; rfl, le_trans ?_ ih.2⟩
          have ka : ∀ w : Tokenizer, w.pos ≤ w.advance.pos := by
            intro w
            simp only [Tokenizer.advance]
            split <;> omega
          exact le_trans (ka u) (ka u.advance)
      | case3 u st str hg hn hb ih =>
          rw [Tokenizer.handle_string_loop, dif_pos hg, if_neg hn, if_neg hb]
          refine ⟨by rw [ih.1]; rfl, le_trans ?_ ih.2⟩
          simp only [Tokenizer.advance]
          split <;> omega
      | case4 u st str hg hq =>
          rw [Tokenizer.handle_string_loop, dif_neg hg, if_pos hq]
          refine ⟨rfl, ?_⟩
          simp only [Tokenizer.advance]
          split <;> omega
      | case5 u st str hg hq =>
          rw [Tokenizer.handle_string_loop, dif_neg hg, if_neg hq]
          exact ⟨rfl, le_refl _⟩
    obtain ⟨kwi, kwp⟩ := kw s
    obtain ⟨khi, khp⟩ := kh s.skip_whitespace_and_comments.advance
      ⟨s.skip_whitespace_and_comments.line, s.skip_whitespace_and_comments.column⟩ []
    have hadv : s.skip_whitespace_and_comments.advance.pos
        = s.skip_whitespace_and_comments.pos + 1 := by
      simp only [Tokenizer.advance, if_pos h1]
    have hai : s.skip_whitespace_and_comments.advance.input
        = s.skip_whitespace_and_comments.input := rfl
    rw [hadv] at khp
    simp only [Tokenizer.handle_string, Tokenizer.length] at h h1 ⊢
    rw [khi, hai, kwi]
    rw [kwi] at h1
    omega
  · have kd : ∀ u : Tokenizer,
        u.consume_digits.input = u.input ∧ u.pos ≤ u.consume_digits.pos := by
      intro u
      induction u using Tokenizer.consume_digits.induct with
      | case1 u hu ih =>
          rw [Tokenizer.consume_digits, dif_pos hu]
          refine ⟨by rw [ih.1]; rfl, le_trans ?_ ih.2⟩
          simp only [Tokenizer.advance]
          split <;> omega
      | case2 u hu =>
          rw [Tokenizer.consume_digits, dif_neg hu]
          exact ⟨rfl, le_refl _⟩
    have kc : ∀ u : Tokenizer,
        u.skip_comment.input = u.input ∧ u.pos ≤ u.skip_comment.pos := by
      intro u
      induction u using Tokenizer.skip_comment.induct with
      | case1 u hu ih =>
          rw [Tokenizer.skip_comment, dif_pos hu]
          refine ⟨by rw [ih.1]; rfl, le_trans ?_ ih.2⟩
          simp only [Tokenizer.advance]
          split <;> omega
      | case2 u hu =>
          rw [Tokenizer.skip_comment, dif_neg hu]
          exact ⟨rfl, le_refl _⟩
    have kw : ∀ u : Tokenizer,
        u.skip_whitespace_and_comments.input = u.input ∧
          u.pos ≤ u.skip_whitespace_and_comments.pos := by
      intro u
      induction u using Tokenizer.skip_whitespace_and_comments.induct with
      | case1 u h1 h2 ih =>
          rw [Tokenizer.skip_whitespace_and_comments, dif_pos h1, dif_pos h2]
          by_cases hnl : u.input.getD u.pos '\x00' = '\n'
          · rw [if_pos hnl]
            rw [dif_pos hnl] at ih
            exact ⟨by rw [ih.1], le_trans (Nat.le_succ u.pos) ih.2⟩
          · rw [if_neg hnl]
            rw [dif_neg hnl] at ih
            exact ⟨by rw [ih.1], le_trans (Nat.le_succ u.pos) ih.2⟩
      | case2 u h1 h2 h3 ih =>
          rw [Tokenizer.skip_whitespace_and_comments, dif_pos h1, dif_neg h2, dif_pos h3]
          exact ⟨by rw [ih.1, (kc u).1], le_trans (kc u).2 ih.2⟩
      | case3 u h1 h2 h3 =>
          rw [Tokenizer.skip_whitespace_and_comments, dif_pos h1, dif_neg h2, dif_neg h3]
          exact ⟨rfl, le_refl _⟩
      | case4 u h1 =>
          rw [Tokenizer.skip_whitespace_and_comments, dif_neg h1]
          exact ⟨rfl, le_refl _⟩
    obtain ⟨kwi, kwp⟩ := kw s
    have hdg : is_digit
        (s.skip_whitespace_and_comments.input.getD
          s.skip_whitespace_and_comments.pos '\x00') := by
      have := hd
      simp only [Tokenizer.peek, if_pos h1] at this
      exact this
    have hone : s.skip_whitespace_and_comments.consume_digits
        = s.skip_whitespace_and_comments.advance.consume_digits := by
      conv_lhs => rw [Tokenizer.consume_digits]
      rw [dif_pos ⟨h1, hdg⟩]
    obtain ⟨kdi, kdp⟩ := kd s.skip_whitespace_and_comments.advance
    have hadv : s.skip_whitespace_and_comments.advance.pos
        = s.skip_whitespace_and_comments.pos + 1 := by
      simp only [Tokenizer.advance, if_pos h1]
    rw [hadv] at kdp
    have hai : s.skip_whitespace_and_comments.advance.input
        = s.skip_whitespace_and_comments.input := rfl
    simp only [Tokenizer.handle_number, Tokenizer.length] at h h1 ⊢
    rw [hone, kdi, hai, kwi]
    rw [kwi] at h1
    omega
  · have kc : ∀ u : Tokenizer,
        u.skip_comment.input = u.input ∧ u.pos ≤ u.skip_comment.pos := by
      intro u
      induction u using Tokenizer.skip_comment.induct with
      | case1 u hu ih =>
          rw [Tokenizer.skip_comment, dif_pos hu]
          refine ⟨by rw [ih.1]; rfl, le_trans ?_ ih.2⟩
          simp only [Tokenizer.advance]
          split <;> omega
      | case2 u hu =>
          rw [Tokenizer.skip_comment, dif_neg hu]
          exact ⟨rfl, le_refl _⟩
    have kw : ∀ u : Tokenizer,
        u.skip_whitespace_and_comments.input = u.input ∧
          u.pos ≤ u.skip_whitespace_and_comments.pos := by
      intro u
      induction u using Tokenizer.skip_whitespace_and_comments.induct with
      | case1 u h1 h2 ih =>
          rw [Tokenizer.skip_whitespace_and_comments, dif_pos h1, dif_pos h2]
          by_cases hnl : u.input.getD u.pos '\x00' = '\n'
          · rw [if_pos hnl]
            rw [dif_pos hnl] at ih
            exact ⟨by rw [ih.1], le_trans (Nat.le_succ u.pos) ih.2⟩
          · rw [if_neg hnl]
            rw [dif_neg hnl] at ih
            exact ⟨by rw [ih.1], le_trans (Nat.le_succ u.pos) ih.2⟩
      | case2 u h1 h2 h3 ih =>
          rw [Tokenizer.skip_whitespace_and_comments, dif_pos h1, dif_neg h2, dif_pos h3]
          exact ⟨by rw [ih.1, (kc u).1], le_trans (kc u).2 ih.2⟩
      | case3 u h1 h2 h3 =>
          rw [Tokenizer.skip_whitespace_and_comments, dif_pos h1, dif_neg h2, dif_neg h3]
          exact ⟨rfl, le_refl _⟩
      | case4 u h1 =>
          rw [Tokenizer.skip_whitespace_and_comments, dif_neg h1]
          exact ⟨rfl, le_refl _⟩
    obtain ⟨kwi, kwp⟩ := kw s
    have hadv : s.skip_whitespace_and_comments.advance.pos
        = s.skip_whitespace_and_comments.pos + 1 := by
      simp only [Tokenizer.advance, if_pos h1]
    simp only [Tokenizer.length] at h h1 ⊢
    have hai : s.skip_whitespace_and_comments.advance.input
        = s.skip_whitespace_and_comments.input := rfl
    rw [hadv, hai, kwi]
    rw [kwi] at h1
    omega
  · have ki : ∀ u : Tokenizer,
        u.consume_ident.input = u.input ∧ u.pos ≤ u.consume_ident.pos := by
      intro u
      induction u using Tokenizer.consume_ident.induct with
      | case1 u hu ih =>
          rw [Tokenizer.consume_ident, dif_pos hu]
          refine ⟨by rw [ih.1]; rfl, le_trans ?_ ih.2⟩
          simp only [Tokenizer.advance]
          split <;> omega
      | case2 u hu =>
          rw [Tokenizer.consume_ident, dif_neg hu]
          exact ⟨rfl, le_refl _⟩
    have kc : ∀ u : Tokenizer,
        u.skip_comment.input = u.input ∧ u.pos ≤ u.skip_comment.pos := by
      intro u
      induction u using Tokenizer.skip_comment.induct with
      | case1 u hu ih =>
          rw [Tokenizer.skip_comment, dif_pos hu]
          refine ⟨by rw [ih.1]; rfl, le_trans ?_ ih.2⟩
          simp only [Tokenizer.advance]
          split <;> omega
      | case2 u hu =>
          rw [Tokenizer.skip_comment, dif_neg hu]
          exact ⟨rfl, le_refl _⟩
    have kw : ∀ u : Tokenizer,
        u.skip_whitespace_and_comments.input = u.input ∧
          u.pos ≤ u.skip_whitespace_and_comments.pos := by
      intro u
      induction u using Tokenizer.skip_whitespace_and_comments.induct with
      | case1 u h1 h2 ih =>
          rw [Tokenizer.skip_whitespace_and_comments, dif_pos h1, dif_pos h2]
          by_cases hnl : u.input.getD u.pos '\x00' = '\n'
          · rw [if_pos hnl]
            rw [dif_pos hnl] at ih
            exact ⟨by rw [ih.1], le_trans (Nat.le_succ u.pos) ih.2⟩
          · rw [if_neg hnl]
            rw [dif_neg hnl] at ih
            exact ⟨by rw [ih.1], le_trans (Nat.le_succ u.pos) ih.2⟩
      | case2 u h1 h2 h3 ih =>
          rw [Tokenizer.skip_whitespace_and_comments, dif_pos h1, dif_neg h2, dif_pos h3]
          exact ⟨by rw [ih.1, (kc u).1], le_trans (kc u).2 ih.2⟩
      | case3 u h1 h2 h3 =>
          rw [Tokenizer.skip_whitespace_and_comments, dif_pos h1, dif_neg h2, dif_neg h3]
          exact ⟨rfl, le_refl _⟩
      | case4 u h1 =>
          rw [Tokenizer.skip_whitespace_and_comments, dif_neg h1]
          exact ⟨rfl, le_refl _⟩
    obtain ⟨kwi, kwp⟩ := kw s
    have hag : (c_isalnum
        (s.skip_whitespace_and_comments.input.getD
          s.skip_whitespace_and_comments.pos '\x00') ||
        s.skip_whitespace_and_comments.input.getD
          s.skip_whitespace_and_comments.pos '\x00' == '_') = true := by
      have hpk := ha
      simp only [Tokenizer.peek, if_pos h1] at hpk
      simp only [c_isalnum, hpk, Bool.true_or]
    have hone : s.skip_whitespace_and_comments.consume_ident
        = s.skip_whitespace_and_comments.advance.consume_ident := by
      conv_lhs => rw [Tokenizer.consume_ident]
      rw [dif_pos ⟨h1, hag⟩]
    obtain ⟨kii, kip⟩ := ki s.skip_whitespace_and_comments.advance
    have hadv : s.skip_whitespace_and_comments.advance.pos
        = s.skip_whitespace_and_comments.pos + 1 := by
      simp only [Tokenizer.advance, if_pos h1]
    rw [hadv] at kip
    have hai : s.skip_whitespace_and_comments.advance.input
        = s.skip_whitespace_and_comments.input := rfl
    simp only [Tokenizer.length] at h h1 ⊢
    rw [hone, kii, hai, kwi]
    rw [kwi] at h1
    omega
  · have kc : ∀ u : Tokenizer,
        u.skip_comment.input = u.input ∧ u.pos ≤ u.skip_comment.pos := by
      intro u
      induction u using Tokenizer.skip_comment.induct with
      | case1 u hu ih =>
          rw [Tokenizer.skip_comment, dif_pos hu]
          refine ⟨by rw [ih.1]; rfl, le_trans ?_ ih.2⟩
          simp only [Tokenizer.advance]
          split <;> omega
      | case2 u hu =>
          rw [Tokenizer.skip_comment, dif_neg hu]
          exact ⟨rfl, le_refl _⟩
    have kw : ∀ u : Tokenizer,
        u.skip_whitespace_and_comments.input = u.input ∧
          u.pos ≤ u.skip_whitespace_and_comments.pos := by
      intro u
      induction u using Tokenizer.skip_whitespace_and_comments.induct with
      | case1 u h1 h2 ih =>
          rw [Tokenizer.skip_whitespace_and_comments, dif_pos h1, dif_pos h2]
          by_cases hnl : u.input.getD u.pos '\x00' = '\n'
          · rw [if_pos hnl]
            rw [dif_pos hnl] at ih
            exact ⟨by rw [ih.1], le_trans (Nat.le_succ u.pos) ih.2⟩
          · rw [if_neg hnl]
            rw [dif_neg hnl] at ih
            exact ⟨by rw [ih.1], le_trans (Nat.le_succ u.pos) ih.2⟩
      | case2 u h1 h2 h3 ih =>
          rw [Tokenizer.skip_whitespace_and_comments, dif_pos h1, dif_neg h2, dif_pos h3]
          exact ⟨by rw [ih.1, (kc u).1], le_trans (kc u).2 ih.2⟩
      | case3 u h1 h2 h3 =>
          rw [Tokenizer.skip_whitespace_and_comments, dif_pos h1, dif_neg h2, dif_neg h3]
          exact ⟨rfl, le_refl _⟩
      | case4 u h1 =>
          rw [Tokenizer.skip_whitespace_and_comments, dif_neg h1]
          exact ⟨rfl, le_refl _⟩
    obtain ⟨kwi, kwp⟩ := kw s
    have hadv : s.skip_whitespace_and_comments.advance.pos
        = s.skip_whitespace_and_comments.pos + 1 := by
      simp only [Tokenizer.advance, if_pos h1]
    simp only [Tokenizer.length] at h h1 ⊢
    have hai : s.skip_whitespace_and_comments.advance.input
        = s.skip_whitespace_and_comments.input := rfl
    rw [hadv, hai, kwi]
    rw [kwi] at h1
    omega

/-- Method `tokenize`: run the scanning loop and append the single `eof`
token carrying the final line and column.  The source returns the token
vector; the final scanner state is also returned here so that the recorded
end position can be stated. -/
def Tokenizer.tokenize (s : Tokenizer) : List Token × Tokenizer :=
  ((Tokenizer.tokenize_loop s).1 ++
     [⟨TokenType.eof, "EOF".toList,
       ⟨(Tokenizer.tokenize_loop s).2.line, (Tokenizer.tokenize_loop s).2.column⟩⟩],
   (Tokenizer.tokenize_loop s).2)

/-- The scanning loop of method `to_asm` (the code generator): a forward
scan with index `i` and a running `string_count`, modelled as structural
recursion on the remaining token list.  The three outputs are the emitted
instructions, the accumulated `strings` vector, and the diagnostics printed
to the error channel.  Incrementing `i` past a recognized literal becomes
recursing on `rest2`; the default diagnostic case does not increment `i`,
so it recurses on `rest` (the offending token is examined next). -/
def to_asm_go : List Token → Nat → List AsmInstruction × List StringLiteral × List Diag
  | [], _ => ([], [], [])
  | _ :: [], _ => ([], [], [])
  | t :: next :: rest2, string_count =>
    match t.type with
    | TokenType._return =>
        match next.type with
        | TokenType.int_lit =>
            (⟨AsmOp.mov, "rax", "60", []⟩ ::
             ⟨AsmOp.mov, "rdi", String.mk next.get_value, []⟩ ::
             ⟨AsmOp.syscall, "", "", []⟩ ::
             (to_asm_go rest2 string_count).1,
             (to_asm_go rest2 string_count).2.1,
             (to_asm_go rest2 string_count).2.2)
        | TokenType.string_lit =>
            (⟨AsmOp.mov, "rax", "1", []⟩ ::
             ⟨AsmOp.mov, "rdi", "1", []⟩ ::
             ⟨AsmOp.lea, "rsi", "[" ++ ("str_" ++ toString string_count) ++ "]", []⟩ ::
             ⟨AsmOp.mov, "rdx", toString next.get_value.length, []⟩ ::
             ⟨AsmOp.syscall, "", "", []⟩ ::
             ⟨AsmOp.mov, "rax", "60", []⟩ ::
             ⟨AsmOp.mov, "rdi", "0", []⟩ ::
             ⟨AsmOp.syscall, "", "", []⟩ ::
             (to_asm_go rest2 (string_count + 1)).1,
             ⟨"str_" ++ toString string_count, next.get_value, next.get_value.length⟩ ::
               (to_asm_go rest2 (string_count + 1)).2.1,
             (to_asm_go rest2 (string_count + 1)).2.2)
        | _ =>
            ((to_asm_go (next :: rest2) string_count).1,
             (to_asm_go (next :: rest2) string_count).2.1,
             Diag.invalid_return_value next.pos ::
               (to_asm_go (next :: rest2) string_count).2.2)
    | _ => to_asm_go (next :: rest2) string_count
termination_by structural ts _ => ts

/-- Method `to_asm`: run the scan from index 0 with `string_count = 0` and,
when both the instruction vector and the string vector are non-empty, attach
the string vector to the first instruction (the data-section carrier).  The
string vector and the diagnostics are returned alongside, where the source
keeps the former embedded in `instructions[0]` and prints the latter. -/
def to_asm (tokens : List Token) : List AsmInstruction × List StringLiteral × List Diag :=
  match (to_asm_go tokens 0).1, (to_asm_go tokens 0).2.1 with
  | i0 :: irest, s0 :: srest =>
      ({ i0 with strings := s0 :: srest } :: irest,
       (to_asm_go tokens 0).2.1, (to_asm_go tokens 0).2.2)
  | _, _ => ((to_asm_go tokens 0).1, (to_asm_go tokens 0).2.1, (to_asm_go tokens 0).2.2)

/-!
Helper lemmas about the embedded definitions, shared by the claim theorems.
-/

theorem posLe_refl (a : Position) : posLe a a :=
  Or.inr ⟨rfl, le_refl _⟩

theorem posLe_trans {a b c : Position} (h1 : posLe a b) (h2 : posLe b c) :
    posLe a c := by
  unfold posLe at *
  omega

theorem Tokenizer.advance_input (s : Tokenizer) : s.advance.input = s.input := rfl

theorem Tokenizer.advance_line (s : Tokenizer) : s.advance.line = s.line := rfl

theorem Tokenizer.advance_column (s : Tokenizer) :
    s.advance.column = s.column + 1 := rfl

theorem Tokenizer.advance_pos_le (s : Tokenizer) : s.pos ≤ s.advance.pos := by
  simp only [Tokenizer.advance]
  split <;> omega

theorem Tokenizer.advance_pos_of_lt {s : Tokenizer} (h : s.pos < s.length) :
    s.advance.pos = s.pos + 1 := by
  simp only [Tokenizer.advance, if_pos h]

theorem Tokenizer.statePos_le_advance (s : Tokenizer) :
    posLe s.statePos s.advance.statePos :=
  Or.inr ⟨rfl, Nat.le_succ _⟩

theorem Tokenizer.skip_comment_spec (s : Tokenizer) :
    s.skip_comment.input = s.input ∧ s.pos ≤ s.skip_comment.pos ∧
    s.skip_comment.line = s.line ∧ s.column ≤ s.skip_comment.column := by
  induction s using Tokenizer.skip_comment.induct with
  | case1 u hu ih =>
      rw [Tokenizer.skip_comment, dif_pos hu]
      exact ⟨by rw [ih.1]; rfl,
             le_trans (Tokenizer.advance_pos_le u) ih.2.1,
             by rw [ih.2.2.1]; rfl,
             le_trans (Nat.le_succ u.column) ih.2.2.2⟩
  | case2 u hu =>
      rw [Tokenizer.skip_comment, dif_neg hu]
      exact ⟨rfl, le_refl _, rfl, le_refl _⟩

theorem Tokenizer.statePos_le_skip_comment (s : Tokenizer) :
    posLe s.statePos s.skip_comment.statePos :=
  Or.inr ⟨(Tokenizer.skip_comment_spec s).2.2.1.symm,
          (Tokenizer.skip_comment_spec s).2.2.2⟩

theorem Tokenizer.skip_whitespace_and_comments_spec (s : Tokenizer) :
    s.skip_whitespace_and_comments.input = s.input ∧
    s.pos ≤ s.skip_whitespace_and_comments.pos ∧
    posLe s.statePos s.skip_whitespace_and_comments.statePos := by
  induction s using Tokenizer.skip_whitespace_and_comments.induct with
  | case1 u h1 h2 ih =>
      rw [Tokenizer.skip_whitespace_and_comments, dif_pos h1, dif_pos h2]
      simp only [dite_eq_ite] at ih
      by_cases hnl : u.input.getD u.pos '\x00' = '\n'
      · rw [if_pos hnl]
        rw [if_pos hnl] at ih
        have step : posLe u.statePos (Tokenizer.statePos
            { input := u.input, pos := u.pos + 1, line := u.line + 1, column := 1 }) :=
          Or.inl (Nat.lt_succ_self u.line)
        exact ⟨by rw [ih.1], le_trans (Nat.le_succ u.pos) ih.2.1,
               posLe_trans step ih.2.2⟩
      · rw [if_neg hnl]
        rw [if_neg hnl] at ih
        have step : posLe u.statePos (Tokenizer.statePos
            { input := u.input, pos := u.pos + 1, line := u.line, column := u.column + 1 }) :=
          Or.inr ⟨rfl, Nat.le_succ u.column⟩
        exact ⟨by rw [ih.1], le_trans (Nat.le_succ u.pos) ih.2.1,
               posLe_trans step ih.2.2⟩
  | case2 u h1 h2 h3 ih =>
      rw [Tokenizer.skip_whitespace_and_comments, dif_pos h1, dif_neg h2, dif_pos h3]
      exact ⟨by rw [ih.1, (Tokenizer.skip_comment_spec u).1],
             le_trans (Tokenizer.skip_comment_spec u).2.1 ih.2.1,
             posLe_trans (Tokenizer.statePos_le_skip_comment u) ih.2.2⟩
  | case3 u h1 h2 h3 =>
      rw [Tokenizer.skip_whitespace_and_comments, dif_pos h1, dif_neg h2, dif_neg h3]
      exact ⟨rfl, le_refl _, posLe_refl _⟩
  | case4 u h1 =>
      rw [Tokenizer.skip_whitespace_and_comments, dif_neg h1]
      exact ⟨rfl, le_refl _, posLe_refl _⟩

theorem Tokenizer.consume_digits_spec (s : Tokenizer) :
    s.consume_digits.input = s.input ∧ s.pos ≤ s.consume_digits.pos ∧
    s.consume_digits.line = s.line ∧ s.column ≤ s.consume_digits.column := by
  induction s using Tokenizer.consume_digits.induct with
  | case1 u hu ih =>
      rw [Tokenizer.consume_digits, dif_pos hu]
      exact ⟨by rw [ih.1]; rfl,
             le_trans (Tokenizer.advance_pos_le u) ih.2.1,
             by rw [ih.2.2.1]; rfl,
             le_trans (Nat.le_succ u.column) ih.2.2.2⟩
  | case2 u hu =>
      rw [Tokenizer.consume_digits, dif_neg hu]
      exact ⟨rfl, le_refl _, rfl, le_refl _⟩

theorem Tokenizer.consume_ident_spec (s : Tokenizer) :
    s.consume_ident.input = s.input ∧ s.pos ≤ s.consume_ident.pos ∧
    s.consume_ident.line = s.line ∧ s.column ≤ s.consume_ident.column := by
  induction s using Tokenizer.consume_ident.induct with
  | case1 u hu ih =>
      rw [Tokenizer.consume_ident, dif_pos hu]
      exact ⟨by rw [ih.1]; rfl,
             le_trans (Tokenizer.advance_pos_le u) ih.2.1,
             by rw [ih.2.2.1]; rfl,
             le_trans (Nat.le_succ u.column) ih.2.2.2⟩
  | case2 u hu =>
      rw [Tokenizer.consume_ident, dif_neg hu]
      exact ⟨rfl, le_refl _, rfl, le_refl _⟩

theorem Tokenizer.handle_string_loop_spec (s : Tokenizer) (st : Position)
    (str : List Char) :
    (s.handle_string_loop st str).2.input = s.input ∧
    s.pos ≤ (s.handle_string_loop st str).2.pos ∧
    (s.handle_string_loop st str).2.line = s.line ∧
    s.column ≤ (s.handle_string_loop st str).2.column ∧
    (s.handle_string_loop st str).1.pos = st ∧
    ((s.handle_string_loop st str).1.type = TokenType.string_lit ∨
      (s.handle_string_loop st str).1.type = TokenType.invalid) := by
  induction s, st, str using Tokenizer.handle_string_loop.induct with
  | case1 u st str hg hn =>
      rw [Tokenizer.handle_string_loop, dif_pos hg, if_pos hn]
      exact ⟨rfl, le_refl _, rfl, le_refl _, rfl, Or.inr rfl⟩
  | case2 u st str hg hn hb ih =>
      rw [Tokenizer.handle_string_loop, dif_pos hg, if_neg hn, if_pos hb]
      exact ⟨by rw [ih.1]; rfl,
             le_trans (le_trans (Tokenizer.advance_pos_le u)
               (Tokenizer.advance_pos_le u.advance)) ih.2.1,
             by rw [ih.2.2.1]; rfl,
             le_trans (le_trans (Nat.le_succ u.column)
               (Nat.le_succ (u.column + 1))) ih.2.2.2.1,
             ih.2.2.2.2⟩
  | case3 u st str hg hn hb ih =>
      rw [Tokenizer.handle_string_loop, dif_pos hg, if_neg hn, if_neg hb]
      exact ⟨by rw [ih.1]; rfl,
             le_trans (Tokenizer.advance_pos_le u) ih.2.1,
             by rw [ih.2.2.1]; rfl,
             le_trans (Nat.le_succ u.column) ih.2.2.2.1,
             ih.2.2.2.2⟩
  | case4 u st str hg hq =>
      rw [Tokenizer.handle_string_loop, dif_neg hg, if_pos hq]
      exact ⟨rfl, Tokenizer.advance_pos_le u, rfl, Nat.le_succ u.column,
             rfl, Or.inl rfl⟩
  | case5 u st str hg hq =>
      rw [Tokenizer.handle_string_loop, dif_neg hg, if_neg hq]
      exact ⟨rfl, le_refl _, rfl, le_refl _, rfl, Or.inr rfl⟩

theorem Tokenizer.handle_string_spec (s : Tokenizer) :
    (s.handle_string).2.input = s.input ∧ s.pos ≤ (s.handle_string).2.pos ∧
    (s.handle_string).2.line = s.line ∧ s.column ≤ (s.handle_string).2.column ∧
    (s.handle_string).1.pos = s.statePos ∧
    ((s.handle_string).1.type = TokenType.string_lit ∨
      (s.handle_string).1.type = TokenType.invalid) := by
  have h := Tokenizer.handle_string_loop_spec s.advance ⟨s.line, s.column⟩ []
  refine ⟨?_, ?_, ?_, ?_, ?_, ?_⟩
  · rw [Tokenizer.handle_string, h.1]; rfl
  · exact le_trans (Tokenizer.advance_pos_le s) h.2.1
  · rw [Tokenizer.handle_string, h.2.2.1]; rfl
  · exact le_trans (Nat.le_succ s.column) h.2.2.2.1
  · rw [Tokenizer.handle_string, h.2.2.2.2.1]; rfl
  · exact h.2.2.2.2.2

theorem get_keyword_type_cases (w : List Char) :
    get_keyword_type w = TokenType._return ∨
    get_keyword_type w = TokenType.identifier := by
  unfold get_keyword_type
  split
  · exact Or.inl rfl
  · exact Or.inr rfl

theorem Tokenizer.tokenize_loop_kinds (s : Tokenizer) :
    ∀ t ∈ (Tokenizer.tokenize_loop s).1,
      t.type = TokenType._return ∨ t.type = TokenType.int_lit ∨
      t.type = TokenType.string_lit ∨ t.type = TokenType.identifier ∨
      t.type = TokenType.semi ∨ t.type = TokenType.invalid := by
  induction s using Tokenizer.tokenize_loop.induct with
  | case1 x h h1 hq ih =>
      rw [Tokenizer.tokenize_loop, dif_pos h, dif_pos h1, if_pos hq]
      intro t ht
      simp only [cons_token] at ht
      rcases List.mem_cons.mp ht with h' | h'
      · subst h'
        rcases (Tokenizer.handle_string_spec x.skip_whitespace_and_comments).2.2.2.2.2
          with hs | hs
        · exact Or.inr (Or.inr (Or.inl hs))
        · exact Or.inr (Or.inr (Or.inr (Or.inr (Or.inr hs))))
      · exact ih t h'
  | case2 x h h1 hq hd ih =>
      rw [Tokenizer.tokenize_loop, dif_pos h, dif_pos h1, if_neg hq, dif_pos hd]
      intro t ht
      simp only [cons_token] at ht
      rcases List.mem_cons.mp ht with h' | h'
      · subst h'
        exact Or.inr (Or.inl rfl)
      · exact ih t h'
  | case3 x h h1 hq hd hs ih =>
      rw [Tokenizer.tokenize_loop, dif_pos h, dif_pos h1, if_neg hq, dif_neg hd,
          if_pos hs]
      intro t ht
      simp only [cons_token] at ht
      rcases List.mem_cons.mp ht with h' | h'
      · subst h'
        exact Or.inr (Or.inr (Or.inr (Or.inr (Or.inl rfl))))
      · exact ih t h'
  | case4 x h h1 hq hd hs ha ih =>
      rw [Tokenizer.tokenize_loop, dif_pos h, dif_pos h1, if_neg hq, dif_neg hd,
          if_neg hs, dif_pos ha]
      intro t ht
      simp only [cons_token] at ht
      rcases List.mem_cons.mp ht with h' | h'
      · subst h'
        rcases get_keyword_type_cases
            ((x.skip_whitespace_and_comments.input.drop
                x.skip_whitespace_and_comments.pos).take
              (x.skip_whitespace_and_comments.consume_ident.pos -
                x.skip_whitespace_and_comments.pos)) with hk | hk
        · exact Or.inl hk
        · exact Or.inr (Or.inr (Or.inr (Or.inl hk)))
      · exact ih t h'
  | case5 x h h1 hq hd hs ha ih =>
      rw [Tokenizer.tokenize_loop, dif_pos h, dif_pos h1, if_neg hq, dif_neg hd,
          if_neg hs, dif_neg ha]
      exact ih
  | case6 x h h1 =>
      rw [Tokenizer.tokenize_loop, dif_pos h, dif_neg h1]
      intro t ht
      simp at ht
  | case7 x h =>
      rw [Tokenizer.tokenize_loop, dif_neg h]
      intro t ht
      simp at ht

theorem Tokenizer.tokenize_loop_positions (s : Tokenizer) :
    List.Pairwise (fun a b : Token => posLe a.pos b.pos)
      (Tokenizer.tokenize_loop s).1 ∧
    (∀ t ∈ (Tokenizer.tokenize_loop s).1,
        posLe s.statePos t.pos ∧
        posLe t.pos (Tokenizer.tokenize_loop s).2.statePos) ∧
    posLe s.statePos (Tokenizer.tokenize_loop s).2.statePos := by
  induction s using Tokenizer.tokenize_loop.induct with
  | case1 x h h1 hq ih =>
      rw [Tokenizer.tokenize_loop, dif_pos h, dif_pos h1, if_pos hq]
      obtain ⟨ihP, ihB, ihF⟩ := ih
      have hws := (Tokenizer.skip_whitespace_and_comments_spec x).2.2
      have hspec := Tokenizer.handle_string_spec x.skip_whitespace_and_comments
      have htok := hspec.2.2.2.2.1
      have hnext : posLe x.skip_whitespace_and_comments.statePos
          (x.skip_whitespace_and_comments.handle_string).2.statePos :=
        Or.inr ⟨hspec.2.2.1.symm, hspec.2.2.2.1⟩
      refine ⟨?_, ?_, ?_⟩
      · simp only [cons_token]
        rw [List.pairwise_cons]
        refine ⟨fun b hb => ?_, ihP⟩
        rw [htok]
        exact posLe_trans hnext (ihB b hb).1
      · simp only [cons_token]
        intro t ht
        rcases List.mem_cons.mp ht with h' | h'
        · subst h'
          rw [htok]
          exact ⟨hws, posLe_trans hnext ihF⟩
        · exact ⟨posLe_trans hws (posLe_trans hnext (ihB t h').1), (ihB t h').2⟩
      · exact posLe_trans hws (posLe_trans hnext ihF)
  | case2 x h h1 hq hd ih =>
      rw [Tokenizer.tokenize_loop, dif_pos h, dif_pos h1, if_neg hq, dif_pos hd]
      obtain ⟨ihP, ihB, ihF⟩ := ih
      have hws := (Tokenizer.skip_whitespace_and_comments_spec x).2.2
      have hspec := Tokenizer.consume_digits_spec x.skip_whitespace_and_comments
      have htok : ((x.skip_whitespace_and_comments.handle_number).1).pos
          = x.skip_whitespace_and_comments.statePos := by
        simp only [Tokenizer.handle_number]
        rw [Tokenizer.statePos, hspec.2.2.1]
      have hnext : posLe x.skip_whitespace_and_comments.statePos
          x.skip_whitespace_and_comments.consume_digits.statePos :=
        Or.inr ⟨hspec.2.2.1.symm, hspec.2.2.2⟩
      refine ⟨?_, ?_, ?_⟩
      · simp only [cons_token]
        rw [List.pairwise_cons]
        refine ⟨fun b hb => ?_, ihP⟩
        rw [htok]
        exact posLe_trans hnext (ihB b hb).1
      · simp only [cons_token]
        intro t ht
        rcases List.mem_cons.mp ht with h' | h'
        · subst h'
          rw [htok]
          exact ⟨hws, posLe_trans hnext ihF⟩
        · exact ⟨posLe_trans hws (posLe_trans hnext (ihB t h').1), (ihB t h').2⟩
      · exact posLe_trans hws (posLe_trans hnext ihF)
  | case3 x h h1 hq hd hs ih =>
      rw [Tokenizer.tokenize_loop, dif_pos h, dif_pos h1, if_neg hq, dif_neg hd,
          if_pos hs]
      obtain ⟨ihP, ihB, ihF⟩ := ih
      have hws := (Tokenizer.skip_whitespace_and_comments_spec x).2.2
      have hnext := Tokenizer.statePos_le_advance x.skip_whitespace_and_comments
      refine ⟨?_, ?_, ?_⟩
      · simp only [cons_token]
        rw [List.pairwise_cons]
        exact ⟨fun b hb => posLe_trans hnext (ihB b hb).1, ihP⟩
      · simp only [cons_token]
        intro t ht
        rcases List.mem_cons.mp ht with h' | h'
        · subst h'
          exact ⟨hws, posLe_trans hnext ihF⟩
        · exact ⟨posLe_trans hws (posLe_trans hnext (ihB t h').1), (ihB t h').2⟩
      · exact posLe_trans hws (posLe_trans hnext ihF)
  | case4 x h h1 hq hd hs ha ih =>
      rw [Tokenizer.tokenize_loop, dif_pos h, dif_pos h1, if_neg hq, dif_neg hd,
          if_neg hs, dif_pos ha]
      obtain ⟨ihP, ihB, ihF⟩ := ih
      have hws := (Tokenizer.skip_whitespace_and_comments_spec x).2.2
      have hspec := Tokenizer.consume_ident_spec x.skip_whitespace_and_comments
      have htok : (x.skip_whitespace_and_comments.ident_token).pos
          = x.skip_whitespace_and_comments.statePos := by
        simp only [Tokenizer.ident_token]
        rw [Tokenizer.statePos, hspec.2.2.1]
      have hnext : posLe x.skip_whitespace_and_comments.statePos
          x.skip_whitespace_and_comments.consume_ident.statePos :=
        Or.inr ⟨hspec.2.2.1.symm, hspec.2.2.2⟩
      refine ⟨?_, ?_, ?_⟩
      · simp only [cons_token]
        rw [List.pairwise_cons]
        refine ⟨fun b hb => ?_, ihP⟩
        rw [htok]
        exact posLe_trans hnext (ihB b hb).1
      · simp only [cons_token]
        intro t ht
        rcases List.mem_cons.mp ht with h' | h'
        · subst h'
          rw [htok]
          exact ⟨hws, posLe_trans hnext ihF⟩
        · exact ⟨posLe_trans hws (posLe_trans hnext (ihB t h').1), (ihB t h').2⟩
      · exact posLe_trans hws (posLe_trans hnext ihF)
  | case5 x h h1 hq hd hs ha ih =>
      rw [Tokenizer.tokenize_loop, dif_pos h, dif_pos h1, if_neg hq, dif_neg hd,
          if_neg hs, dif_neg ha]
      obtain ⟨ihP, ihB, ihF⟩ := ih
      have hws := (Tokenizer.skip_whitespace_and_comments_spec x).2.2
      have hnext := Tokenizer.statePos_le_advance x.skip_whitespace_and_comments
      refine ⟨ihP, ?_, posLe_trans hws (posLe_trans hnext ihF)⟩
      intro t ht
      exact ⟨posLe_trans hws (posLe_trans hnext (ihB t ht).1), (ihB t ht).2⟩
  | case6 x h h1 =>
      rw [Tokenizer.tokenize_loop, dif_pos h, dif_neg h1]
      refine ⟨List.Pairwise.nil, ?_, (Tokenizer.skip_whitespace_and_comments_spec x).2.2⟩
      intro t ht
      simp at ht
  | case7 x h =>
      rw [Tokenizer.tokenize_loop, dif_neg h]
      refine ⟨List.Pairwise.nil, ?_, posLe_refl _⟩
      intro t ht
      simp at ht

theorem to_asm_go_ops (ts : List Token) (cnt : Nat) :
    ∀ i ∈ (to_asm_go ts cnt).1,
      i.op = AsmOp.mov ∨ i.op = AsmOp.lea ∨ i.op = AsmOp.syscall := by
  induction ts, cnt using to_asm_go.induct with
  | case1 cnt =>
      intro i hi
      simp [to_asm_go] at hi
  | case2 t cnt =>
      intro i hi
      simp [to_asm_go] at hi
  | case3 t next rest2 cnt h1 h2 ih =>
      intro i hi
      obtain ⟨ty, tv, tp⟩ := t
      obtain ⟨nty, nv, np⟩ := next
      dsimp only at h1 h2
      subst h1
      subst h2
      simp only [to_asm_go, List.mem_cons] at hi
      rcases hi with rfl | rfl | rfl | hi
      · exact Or.inl rfl
      · exact Or.inl rfl
      · exact Or.inr (Or.inr rfl)
      · exact ih i hi
  | case4 t next rest2 cnt h1 h2 ih =>
      intro i hi
      obtain ⟨ty, tv, tp⟩ := t
      obtain ⟨nty, nv, np⟩ := next
      dsimp only at h1 h2
      subst h1
      subst h2
      simp only [to_asm_go, List.mem_cons] at hi
      rcases hi with rfl | rfl | rfl | rfl | rfl | rfl | rfl | rfl | hi
      · exact Or.inl rfl
      · exact Or.inl rfl
      · exact Or.inr (Or.inl rfl)
      · exact Or.inl rfl
      · exact Or.inr (Or.inr rfl)
      · exact Or.inl rfl
      · exact Or.inl rfl
      · exact Or.inr (Or.inr rfl)
      · exact ih i hi
  | case5 t next rest2 cnt h1 h2 h3 ih =>
      intro i hi
      obtain ⟨ty, tv, tp⟩ := t
      obtain ⟨nty, nv, np⟩ := next
      dsimp only at h1 h2 h3
      subst h1
      cases nty
      · simp only [to_asm_go] at hi
        exact ih i hi
      · exact absurd rfl h2
      · exact absurd rfl h3
      all_goals
        simp only [to_asm_go] at hi
        exact ih i hi
  | case6 t next rest2 cnt h1 ih =>
      intro i hi
      obtain ⟨ty, tv, tp⟩ := t
      dsimp only at h1
      cases ty
      · exact absurd rfl h1
      all_goals
        simp only [to_asm_go] at hi
        exact ih i hi

theorem to_asm_diags (ts : List Token) :
    (to_asm ts).2.2 = (to_asm_go ts 0).2.2 := by
  unfold to_asm
  split <;> rfl

theorem to_asm_go_singleton (t : Token) (cnt : Nat) :
    to_asm_go [t] cnt = ([], [], []) := rfl

theorem to_asm_go_step_bad_return (t next : Token) (rest : List Token) (cnt : Nat)
    (h : t.type = TokenType._return) (h1 : next.type ≠ TokenType.int_lit)
    (h2 : next.type ≠ TokenType.string_lit) :
    to_asm_go (t :: next :: rest) cnt =
      ((to_asm_go (next :: rest) cnt).1, (to_asm_go (next :: rest) cnt).2.1,
       Diag.invalid_return_value next.pos :: (to_asm_go (next :: rest) cnt).2.2) := by
  obtain ⟨ty, tv, tp⟩ := t
  obtain ⟨nty, nv, np⟩ := next
  dsimp only at h h1 h2
  subst h
  cases nty <;>
    first
    | exact absurd rfl h1
    | exact absurd rfl h2
    | simp [to_asm_go]

theorem to_asm_go_diags_ret_int (t next : Token) (rest : List Token) (cnt : Nat)
    (h : t.type = TokenType._return) (h1 : next.type = TokenType.int_lit) :
    (to_asm_go (t :: next :: rest) cnt).2.2 = (to_asm_go rest cnt).2.2 := by
  obtain ⟨ty, tv, tp⟩ := t
  obtain ⟨nty, nv, np⟩ := next
  dsimp only at h h1
  subst h
  subst h1
  rfl

theorem to_asm_go_diags_ret_str (t next : Token) (rest : List Token) (cnt : Nat)
    (h : t.type = TokenType._return) (h1 : next.type = TokenType.string_lit) :
    (to_asm_go (t :: next :: rest) cnt).2.2 = (to_asm_go rest (cnt + 1)).2.2 := by
  obtain ⟨ty, tv, tp⟩ := t
  obtain ⟨nty, nv, np⟩ := next
  dsimp only at h h1
  subst h
  subst h1
  rfl

theorem to_asm_go_diags_skip (t next : Token) (rest : List Token) (cnt : Nat)
    (h : t.type ≠ TokenType._return) :
    (to_asm_go (t :: next :: rest) cnt).2.2 =
      (to_asm_go (next :: rest) cnt).2.2 := by
  obtain ⟨ty, tv, tp⟩ := t
  dsimp only at h
  cases ty <;>
    first
    | exact absurd rfl h
    | rfl

theorem to_asm_go_diag_complete :
    ∀ (n : Nat) (ts pre rest : List Token) (t next : Token) (cnt : Nat),
      ts.length ≤ n → ts = pre ++ t :: next :: rest →
      t.type = TokenType._return → next.type ≠ TokenType.int_lit →
      next.type ≠ TokenType.string_lit →
      Diag.invalid_return_value next.pos ∈ (to_asm_go ts cnt).2.2 := by
  intro n
  induction n with
  | zero =>
      intro ts pre rest t next cnt hlen hdec _ _ _
      subst hdec
      simp at hlen
  | succ n ih =>
      intro ts pre rest t next cnt hlen hdec hret h1 h2
      subst hdec
      cases pre with
      | nil =>
          simp only [List.nil_append]
          rw [to_asm_go_step_bad_return t next rest cnt hret h1 h2]
          exact List.mem_cons_self _ _
      | cons p pre2 =>
          have hne : pre2 ++ t :: next :: rest ≠ [] := by simp
          obtain ⟨q, tail, hq⟩ := List.exists_cons_of_ne_nil hne
          rw [List.cons_append, hq]
          have hlen2 : (q :: tail).length ≤ n := by
            rw [← hq]
            simp only [List.cons_append, List.length_cons] at hlen ⊢
            omega
          by_cases hp : p.type = TokenType._return
          · by_cases hqi : q.type = TokenType.int_lit
            · cases pre2 with
              | nil =>
                  simp only [List.nil_append, List.cons.injEq] at hq
                  rw [← hq.1, hret] at hqi
                  exact absurd hqi (by decide)
              | cons q2 pre3 =>
                  simp only [List.cons_append, List.cons.injEq] at hq
                  rw [to_asm_go_diags_ret_int p q tail cnt hp hqi]
                  have hlen3 : tail.length ≤ n := by
                    simp at hlen2
                    omega
                  exact ih tail pre3 rest t next cnt hlen3 hq.2.symm hret h1 h2
            · by_cases hqs : q.type = TokenType.string_lit
              · cases pre2 with
                | nil =>
                    simp only [List.nil_append, List.cons.injEq] at hq
                    rw [← hq.1, hret] at hqs
                    exact absurd hqs (by decide)
                | cons q2 pre3 =>
                    simp only [List.cons_append, List.cons.injEq] at hq
                    rw [to_asm_go_diags_ret_str p q tail cnt hp hqs]
                    have hlen3 : tail.length ≤ n := by
                      simp at hlen2
                      omega
                    exact ih tail pre3 rest t next (cnt + 1) hlen3 hq.2.symm hret h1 h2
              · rw [to_asm_go_step_bad_return p q tail cnt hp hqi hqs]
                refine List.mem_cons_of_mem _ ?_
                exact ih (q :: tail) pre2 rest t next cnt hlen2 hq.symm hret h1 h2
          · rw [to_asm_go_diags_skip p q tail cnt hp]
            exact ih (q :: tail) pre2 rest t next cnt hlen2 hq.symm hret h1 h2

/-!
Claim theorems.
-/

/-- Claim C1 (code-defect evidence): processing two Return-followed-by-
StringLiteral patterns with byte-identical content `hi` makes the code
generator emit TWO string-pool entries with distinct labels `str_0` and
`str_1`, refuting the single-entry/single-label invariant on the `to_asm`
path; the second conjunct shows that the `StringPool` class the repository
carries for exactly this purpose does deduplicate (a second `get_or_add` of
`hi` returns the existing index 0 and leaves one entry), so `to_asm`
bypassing it is the defect. -/
theorem C1_to_asm_pool_duplicates_but_get_or_add_dedups :
    (to_asm
      [⟨TokenType._return, "return".toList, ⟨1, 1⟩⟩,
       ⟨TokenType.string_lit, "hi".toList, ⟨1, 8⟩⟩,
       ⟨TokenType._return, "return".toList, ⟨2, 1⟩⟩,
       ⟨TokenType.string_lit, "hi".toList, ⟨2, 8⟩⟩]).2.1 =
      [⟨"str_0", "hi".toList, 2⟩, ⟨"str_1", "hi".toList, 2⟩] ∧
    ((StringPool.mk []).get_or_add "hi".toList).2.get_or_add "hi".toList =
      (0, ⟨[⟨"str_0", "hi".toList, 2⟩]⟩) := by
  constructor
  · decide
  · decide

/-- Claim C2 (counterexample): the token constructed from the 3-byte lexeme
`a NUL b` is stored inline (length 3 is at most 23), and `get_value` reads
the inline buffer as a C string, stopping at the embedded NUL: it returns
`a` instead of the constructed bytes, so the two storage strategies are not
observably equivalent for lexemes containing NUL bytes. -/
theorem C2_counterexample_inline_nul_truncates :
    (Token.mk TokenType.invalid ['a', '\x00', 'b'] ⟨1, 1⟩).get_value = ['a'] ∧
    (Token.mk TokenType.invalid ['a', '\x00', 'b'] ⟨1, 1⟩).get_value ≠
      ['a', '\x00', 'b'] := by
  constructor
  · decide
  · decide

/-- Claim C2 (amended): `Token.get_value` returns exactly the byte sequence
the token was constructed with whenever the lexeme contains no NUL byte or
is heap-backed (length at least `SMALL_STRING_SIZE`); only inline-stored
lexemes with an embedded NUL are truncated at the first NUL. -/
theorem C2_amended_storage_transparent (ty : TokenType) (v : List Char)
    (p : Position) (h : '\x00' ∉ v ∨ SMALL_STRING_SIZE ≤ v.length) :
    (Token.mk ty v p).get_value = v := by
  have htake : ∀ (l : List Char), '\x00' ∉ l →
      l.takeWhile (fun c => c ≠ '\x00') = l := by
    intro l
    induction l with
    | nil => intro _; rfl
    | cons c cs ihc =>
        intro hm
        rw [List.mem_cons, not_or] at hm
        have hc : c ≠ '\x00' := fun hcc => hm.1 hcc.symm
        simp only [List.takeWhile_cons]
        rw [if_pos (by simpa using hc), ihc hm.2]
  unfold Token.get_value
  dsimp only
  by_cases hlen : v.length < SMALL_STRING_SIZE
  · rw [if_pos hlen]
    rcases h with h | h
    · exact htake v h
    · omega
  · rw [if_neg hlen]

/-- Witness for the amended C2 theorem at the concrete lexeme `hi`. -/
theorem C2_amended_storage_transparent_witness :
    (Token.mk TokenType.string_lit "hi".toList ⟨1, 8⟩).get_value = "hi".toList :=
  C2_amended_storage_transparent TokenType.string_lit "hi".toList ⟨1, 8⟩
    (Or.inl (by decide))

/-- Claim C3 (code-defect evidence): the identifier `QW3QJaa` is a maximal
alphanumeric run distinct from `return`, yet `get_keyword_type` classifies
it as the `Return` keyword, because classification compares only the 32-bit
FNV-1a hashes and `QW3QJaa` collides with `return` (both hash to
2246981567); the third conjunct shows the misclassification end to end
through `tokenize`. -/
theorem C3_fnv1a_collision_misclassified_as_return :
    get_keyword_type "QW3QJaa".toList = TokenType._return ∧
    "QW3QJaa".toList ≠ "return".toList ∧
    ((Tokenizer.init "QW3QJaa".toList).tokenize).1 =
      [⟨TokenType._return, "QW3QJaa".toList, ⟨1, 1⟩⟩,
       ⟨TokenType.eof, "EOF".toList, ⟨1, 8⟩⟩] := by
  have hw : get_keyword_type ['Q', 'W', '3', 'Q', 'J', 'a', 'a'] =
      TokenType._return := by decide
  refine ⟨by decide, by decide, ?_⟩
  simp [Tokenizer.tokenize, Tokenizer.tokenize_loop,
        Tokenizer.skip_whitespace_and_comments, Tokenizer.skip_comment,
        Tokenizer.handle_string, Tokenizer.handle_string_loop, escape_decode,
        Tokenizer.handle_number, Tokenizer.consume_digits,
        Tokenizer.consume_ident, Tokenizer.ident_token, Tokenizer.advance,
        Tokenizer.peek, Tokenizer.length, Tokenizer.statePos, Tokenizer.init,
        is_digit, c_isspace, c_isalpha, c_isalnum, cons_token, hw]

/-- Claim C4 (counterexample): a token sequence consisting of a single
Return token with nothing after it makes the code generator emit nothing at
all: no instructions, no pool entries and in particular NO diagnostic citing
the Return token, contrary to the claimed diagnostic for a Return at the end
of the stream. -/
theorem C4_counterexample_trailing_return_is_silent :
    to_asm [⟨TokenType._return, "return".toList, ⟨1, 1⟩⟩] = ([], [], []) ∧
    Diag.invalid_return_value ⟨1, 1⟩ ∉
      (to_asm [⟨TokenType._return, "return".toList, ⟨1, 1⟩⟩]).2.2 := by
  constructor
  · rfl
  · decide

/-- Claim C4 (amended): whenever a Return token is immediately followed by a
token that is neither IntegerLiteral nor StringLiteral, the code generator
emits a diagnostic citing the position of that following token, emits no
instructions for the occurrence, and continues scanning from that following
token; a Return with no following token at all is skipped silently, with no
diagnostic and no instructions (first conjunct: the diagnostic is present in
the output for any such occurrence anywhere in the sequence; second: a final
lone token generates nothing; third: the exact step behaviour). -/
theorem C4_amended_bad_return_diagnosed (pre rest : List Token) (t next : Token)
    (h : t.type = TokenType._return) (h1 : next.type ≠ TokenType.int_lit)
    (h2 : next.type ≠ TokenType.string_lit) :
    Diag.invalid_return_value next.pos ∈ (to_asm (pre ++ t :: next :: rest)).2.2 ∧
    (∀ (u : Token) (cnt : Nat), to_asm_go [u] cnt = ([], [], [])) ∧
    (∀ cnt : Nat, to_asm_go (t :: next :: rest) cnt =
      ((to_asm_go (next :: rest) cnt).1, (to_asm_go (next :: rest) cnt).2.1,
       Diag.invalid_return_value next.pos ::
         (to_asm_go (next :: rest) cnt).2.2)) := by
  refine ⟨?_, to_asm_go_singleton, fun cnt => to_asm_go_step_bad_return t next rest cnt h h1 h2⟩
  rw [to_asm_diags]
  exact to_asm_go_diag_complete (pre ++ t :: next :: rest).length
    (pre ++ t :: next :: rest) pre rest t next 0 (le_refl _) rfl h h1 h2

/-- Witness for the amended C4 theorem: `return ;` produces the diagnostic
citing the semicolon position. -/
theorem C4_amended_bad_return_diagnosed_witness :
    Diag.invalid_return_value ⟨1, 8⟩ ∈
      (to_asm [⟨TokenType._return, "return".toList, ⟨1, 1⟩⟩,
               ⟨TokenType.semi, ";".toList, ⟨1, 8⟩⟩]).2.2 :=
  (C4_amended_bad_return_diagnosed [] []
    ⟨TokenType._return, "return".toList, ⟨1, 1⟩⟩
    ⟨TokenType.semi, ";".toList, ⟨1, 8⟩⟩
    rfl (by decide) (by decide)).1

/-- Claim C6: inside a string literal the lexer decodes backslash-n to
newline, backslash-t to tab, backslash-quote to a double quote and
backslash-backslash to a single backslash, and copies any other character
following a backslash through unchanged; lexing the literal from the claim
end to end yields the decoded token text a, newline, b, tab, c, double
quote, d, backslash, e. -/
theorem C6_escape_decoding :
    ((Tokenizer.init "\"a\\nb\\tc\\\"d\\\\e\"".toList).tokenize).1 =
      [⟨TokenType.string_lit, "a\nb\tc\"d\\e".toList, ⟨1, 1⟩⟩,
       ⟨TokenType.eof, "EOF".toList, ⟨1, 16⟩⟩] ∧
    escape_decode 'n' = '\n' ∧ escape_decode 't' = '\t' ∧
    escape_decode '"' = '"' ∧ escape_decode '\\' = '\\' ∧
    ∀ c : Char, c ≠ 'n' → c ≠ 't' → c ≠ '"' → c ≠ '\\' →
      escape_decode c = c := by
  refine ⟨?_, rfl, rfl, rfl, rfl, ?_⟩
  · simp [Tokenizer.tokenize, Tokenizer.tokenize_loop,
          Tokenizer.skip_whitespace_and_comments, Tokenizer.skip_comment,
          Tokenizer.handle_string, Tokenizer.handle_string_loop, escape_decode,
          Tokenizer.handle_number, Tokenizer.consume_digits,
          Tokenizer.consume_ident, Tokenizer.ident_token, Tokenizer.advance,
          Tokenizer.peek, Tokenizer.length, Tokenizer.statePos, Tokenizer.init,
          is_digit, c_isspace, c_isalpha, c_isalnum, cons_token,
          get_keyword_type, hash_keyword]
  · intro c hn ht hq hb
    unfold escape_decode
    rw [if_neg hn, if_neg ht, if_neg hq, if_neg hb]

/-- Witness for the permissive-fallback part of C6 at the character `q`. -/
theorem C6_escape_decoding_witness : escape_decode 'q' = 'q' :=
  C6_escape_decoding.2.2.2.2.2 'q' (by decide) (by decide) (by decide)
    (by decide)

/-- Claim C10: when the remaining input inside an open string literal is a
single backslash (the backslash is the last byte of the input), the string
loop emits an `invalid` token whose decoded text is the partial decode with
an extra NUL byte appended — the NUL comes from `peek` returning NUL at end
of input after the backslash is consumed, not from any input byte.  The
second conjunct runs the whole lexer on the input quote-a-b-backslash. -/
theorem C10_trailing_backslash_appends_nul (s : Tokenizer) (start : Position)
    (str : List Char) (h1 : s.pos + 1 = s.input.length)
    (h2 : s.input.getD s.pos '\x00' = '\\') :
    (s.handle_string_loop start str).1 =
      ⟨TokenType.invalid, str ++ ['\x00'], start⟩ ∧
    ((Tokenizer.init "\"ab\\".toList).tokenize).1 =
      [⟨TokenType.invalid, ['a', 'b', '\x00'], ⟨1, 1⟩⟩,
       ⟨TokenType.eof, "EOF".toList, ⟨1, 6⟩⟩] := by
  constructor
  · have hplt : s.pos < s.length := by
      simp only [Tokenizer.length]
      omega
    have hpk : s.peek = '\\' := by
      rw [Tokenizer.peek, if_pos hplt]
      exact h2
    have hadvpos : s.advance.pos = s.pos + 1 := Tokenizer.advance_pos_of_lt hplt
    have hnlt : ¬ s.advance.pos < s.advance.length := by
      rw [hadvpos]
      simp only [Tokenizer.advance, Tokenizer.length]
      omega
    have hpk2 : s.advance.peek = '\x00' := by
      rw [Tokenizer.peek, if_neg hnlt]
    have hpos2 : s.advance.advance.pos = s.advance.pos := by
      simp only [Tokenizer.advance]
      rw [if_neg]
      intro hc
      exact hnlt (by simpa [Tokenizer.advance, Tokenizer.length] using hc)
    have hnlt2 : ¬ s.advance.advance.pos < s.advance.advance.length := by
      rw [hpos2]
      intro hc
      exact hnlt (by simpa [Tokenizer.advance, Tokenizer.length] using hc)
    have hpk3 : s.advance.advance.peek = '\x00' := by
      rw [Tokenizer.peek, if_neg hnlt2]
    rw [Tokenizer.handle_string_loop,
        dif_pos ⟨by rw [hpk]; decide, by rw [hpk]; decide⟩,
        if_neg (by rw [hpk]; decide), if_pos hpk,
        Tokenizer.handle_string_loop,
        dif_neg (fun hc => hc.2 hpk3),
        if_neg (by rw [hpk3]; decide), hpk2]
    rfl
  · simp [Tokenizer.tokenize, Tokenizer.tokenize_loop,
          Tokenizer.skip_whitespace_and_comments, Tokenizer.skip_comment,
          Tokenizer.handle_string, Tokenizer.handle_string_loop, escape_decode,
          Tokenizer.handle_number, Tokenizer.consume_digits,
          Tokenizer.consume_ident, Tokenizer.ident_token, Tokenizer.advance,
          Tokenizer.peek, Tokenizer.length, Tokenizer.statePos, Tokenizer.init,
          is_digit, c_isspace, c_isalpha, c_isalnum, cons_token,
          get_keyword_type, hash_keyword]

/-- Witness for C10 at the one-byte remaining input backslash. -/
theorem C10_trailing_backslash_appends_nul_witness :
    (Tokenizer.handle_string_loop ⟨['\\'], 0, 1, 2⟩ ⟨1, 1⟩ []).1 =
      ⟨TokenType.invalid, ['\x00'], ⟨1, 1⟩⟩ :=
  (C10_trailing_backslash_appends_nul ⟨['\\'], 0, 1, 2⟩ ⟨1, 1⟩ []
    (by decide) (by decide)).1

/-- Claim C8: every instruction produced by the code generator has an op
drawn only from the set consisting of `mov` (Move), `lea`
(LoadEffectiveAddress) and `syscall` (Syscall); the remaining declared ops
`ret`, `push`, `pop`, `add`, `sub` and `invalid` are never emitted (they are
not in the set). -/
theorem C8_generator_ops_restricted (ts : List Token) :
    ((to_asm ts).1.all
      (fun i => i.op == AsmOp.mov || i.op == AsmOp.lea ||
        i.op == AsmOp.syscall)) = true := by
  rw [List.all_eq_true]
  intro i hi
  have key : i.op = AsmOp.mov ∨ i.op = AsmOp.lea ∨ i.op = AsmOp.syscall := by
    unfold to_asm at hi
    split at hi
    · rename_i i0 irest s0 srest heq1 heq2
      simp only [List.mem_cons] at hi
      rcases hi with rfl | hmem
      · have h0 : i0 ∈ (to_asm_go ts 0).1 := by
          rw [heq1]
          exact List.mem_cons_self _ _
        exact to_asm_go_ops ts 0 i0 h0
      · have h0 : i ∈ (to_asm_go ts 0).1 := by
          rw [heq1]
          exact List.mem_cons_of_mem _ hmem
        exact to_asm_go_ops ts 0 i h0
    · exact to_asm_go_ops ts 0 i hi
  rcases key with h | h | h <;> rw [h] <;> rfl

/-- Claim C5: for every input byte sequence, `tokenize` terminates (it is a
total function of this development, defined by well-founded recursion on the
remaining input), never fails, and its output ends with exactly one `eof`
token whose position is the final line/column reached by the scan: the last
token is the `eof` token positioned at the final scanner state, and no token
before it has kind `eof`. -/
theorem C5_tokenize_terminates_with_single_eof (src : List Char) :
    ((Tokenizer.init src).tokenize).1.getLast? =
      some ⟨TokenType.eof, "EOF".toList,
        ((Tokenizer.init src).tokenize).2.statePos⟩ ∧
    ((Tokenizer.init src).tokenize).1.dropLast.all
      (fun t => t.type != TokenType.eof) = true := by
  constructor
  · simp only [Tokenizer.tokenize]
    rw [List.getLast?_concat]
    rfl
  · simp only [Tokenizer.tokenize]
    rw [List.dropLast_concat, List.all_eq_true]
    intro t ht
    rcases Tokenizer.tokenize_loop_kinds _ t ht with h | h | h | h | h | h <;>
      rw [h] <;> rfl

/-- Claim C7: for every input and any two tokens where the first appears
before the second in the output of `tokenize`, the position of the first is
lexicographically less than or equal to the position of the second under
(line, column) ordering. -/
theorem C7_position_monotonicity (src : List Char) :
    List.Pairwise (fun a b : Token => posLe a.pos b.pos)
      ((Tokenizer.init src).tokenize).1 := by
  simp only [Tokenizer.tokenize]
  rw [List.pairwise_append]
  refine ⟨(Tokenizer.tokenize_loop_positions _).1, by simp, ?_⟩
  intro a ha b hb
  rw [List.mem_singleton] at hb
  subst hb
  exact ((Tokenizer.tokenize_loop_positions _).2.1 a ha).2

/-- Claim C9: every token produced by `tokenize` has a kind in the set
consisting of `_return`, `int_lit`, `string_lit`, `identifier`, `semi`,
`eof` and `invalid`; in particular the declared `quote` kind is never
produced (it is not in the set). -/
theorem C9_token_kinds_within_declared_set (src : List Char) :
    ((Tokenizer.init src).tokenize).1.all
      (fun t =>
        [TokenType._return, TokenType.int_lit, TokenType.string_lit,
         TokenType.identifier, TokenType.semi, TokenType.eof,
         TokenType.invalid].contains t.type) = true := by
  rw [List.all_eq_true]
  intro t ht
  simp only [Tokenizer.tokenize] at ht
  rcases List.mem_append.mp ht with h' | h'
  · rcases Tokenizer.tokenize_loop_kinds _ t h' with h | h | h | h | h | h <;>
      rw [h] <;> rfl
  · rw [List.mem_singleton] at h'
    subst h'
    rfl

end Fire
